import Mathlib

/-!
Verification of the WebRTC audio-conference signaling server and client.

The server model embeds the socket handlers of `src/server/index.js`
(room registry, `join-room` / `leave-room` / `disconnect`, and the
offer / answer / ice-candidate relay with `isValidTarget`).  The client
model embeds the peer-connection bookkeeping of `src/public/main.js`
(`createPeerConnection`, `connectToNewUser`, the `offer` / `answer` /
`ice-candidate` socket handlers, failure handling and cleanup).  The RPC
model embeds the `request` helper of the SFU client (`client.js`).
-/

namespace ConfApp

abbrev PeerId := String
abbrev RoomId := String

/-- Association-list model of a JavaScript `Map`: lookup of a key. -/
def alookup {α β : Type} [DecidableEq α] : List (α × β) → α → Option β
  | [], _ => none
  | (k, v) :: rest, a => if k = a then some v else alookup rest a

/-- `Map.set`: replace the binding of the key in place, or append a new one. -/
def aset {α β : Type} [DecidableEq α] : List (α × β) → α → β → List (α × β)
  | [], k, v => [(k, v)]
  | (k', v') :: rest, k, v =>
      if k' = k then (k, v) :: rest else (k', v') :: aset rest k v

/-- `Map.delete`: drop every binding of the key. -/
def aremove {α β : Type} [DecidableEq α] (m : List (α × β)) (k : α) : List (α × β) :=
  m.filter (fun kv => kv.1 ≠ k)

/-- `Set.add`: append the element unless already present (JS `Set` keeps
insertion order and ignores re-insertion). -/
def addUnique {α : Type} [DecidableEq α] (l : List α) (a : α) : List α :=
  if a ∈ l then l else l ++ [a]

/-- Character class of the sanitizer regex `[^a-zA-Z0-9-]`
(`a`-`z` = 97..122, `A`-`Z` = 65..90, `0`-`9` = 48..57, `-` = 45). -/
def allowedChar (c : Char) : Bool :=
  (Nat.ble 97 c.toNat && Nat.ble c.toNat 122) ||
  (Nat.ble 65 c.toNat && Nat.ble c.toNat 90) ||
  (Nat.ble 48 c.toNat && Nat.ble c.toNat 57) ||
  (c.toNat == 45)

/-- `roomId.replace(/[^a-zA-Z0-9-]/g, '')`: delete every disallowed character. -/
def sanitize (s : String) : String :=
  ⟨s.data.filter allowedChar⟩

/-- Messages emitted by the server to clients.  `dest` is the receiving
socket; the remaining fields are the payload.  Session descriptions and
candidates are abstracted as numbers. -/
inductive Msg : Type
  | existingUsers (dest : PeerId) (users : List PeerId)
  | userConnected (dest : PeerId) (newUser : PeerId)
  | userDisconnected (dest : PeerId) (gone : PeerId)
  | offer (dest : PeerId) (offerer : PeerId) (description : Nat)
  | answer (dest : PeerId) (answerer : PeerId) (description : Nat)
  | iceCandidate (dest : PeerId) (sender : PeerId) (candidate : Nat)
  deriving DecidableEq, Repr

/-- Server state: the `rooms` registry (`Map<roomId, Set<socketId>>`), the
per-socket `currentRoom` variables (a socket is absent when its
`currentRoom` is `null`), and the socket.io room membership maintained by
`socket.join` / `socket.leave` / disconnect cleanup, which determines the
recipients of `socket.to(room).emit`. -/
structure SState where
  rooms : List (RoomId × List PeerId)
  cur : List (PeerId × RoomId)
  socketRooms : List (RoomId × List PeerId)
  deriving DecidableEq, Repr

def initS : SState := ⟨[], [], []⟩

/-- Members of a room in a registry, `[]` when the room is absent. -/
def memberListOf (m : List (RoomId × List PeerId)) (r : RoomId) : List PeerId :=
  (alookup m r).getD []

/-- Members of a room of the registry. -/
def memberList (st : SState) (r : RoomId) : List PeerId :=
  memberListOf st.rooms r

/-- Add a member to a room, creating the room when absent
(`if (!rooms.has(id)) rooms.set(id, new Set()); rooms.get(id).add(x)`;
socket.io does the same on `socket.join`). -/
def roomsAddMember (m : List (RoomId × List PeerId)) (r : RoomId) (p : PeerId) :
    List (RoomId × List PeerId) :=
  match alookup m r with
  | none => aset m r [p]
  | some us => aset m r (addUnique us p)

/-- Remove a member from a room and drop the room when it becomes empty
(`roomUsers.delete(id); if (roomUsers.size === 0) rooms.delete(room)`;
socket.io prunes emptied rooms the same way). -/
def roomsRemoveMember (m : List (RoomId × List PeerId)) (r : RoomId) (p : PeerId) :
    List (RoomId × List PeerId) :=
  match alookup m r with
  | none => m
  | some us =>
      let us' := us.filter (fun q => q ≠ p)
      if us' = [] then aremove m r else aset m r us'

/-- Disconnect cleanup: socket.io removes the socket from every room it is
in, pruning rooms that become empty. -/
def socketRoomsPurge (m : List (RoomId × List PeerId)) (p : PeerId) :
    List (RoomId × List PeerId) :=
  m.filterMap (fun ru =>
    let us' := ru.2.filter (fun q => q ≠ p)
    if us' = [] then none else some (ru.1, us'))

/-- `function handleLeaveRoom()` from `src/server/index.js`:
```
if (currentRoom && rooms.has(currentRoom)) {
    const roomUsers = rooms.get(currentRoom);
    roomUsers.delete(socket.id);
    if (roomUsers.size === 0) rooms.delete(currentRoom);
    socket.to(currentRoom).emit('user-disconnected', socket.id);
    socket.leave(currentRoom);
    currentRoom = null;
}
```
Note `currentRoom && ...` is a JS truthiness test: it fails both when
`currentRoom` is `null` and when it is the empty string.  The recipients of
`socket.to(currentRoom)` are the socket.io room members other than the
sender, read before `socket.leave` runs. -/
def handleLeaveRoom (st : SState) (p : PeerId) : SState × List Msg :=
  match alookup st.cur p with
  | none => (st, [])
  | some currentRoom =>
      if currentRoom = "" then (st, [])
      else
        match alookup st.rooms currentRoom with
        | none => (st, [])
        | some _ =>
            let recips := (memberListOf st.socketRooms currentRoom).filter (fun q => q ≠ p)
            ({ rooms := roomsRemoveMember st.rooms currentRoom p,
               cur := aremove st.cur p,
               socketRooms := roomsRemoveMember st.socketRooms currentRoom p },
             recips.map (fun q => Msg.userDisconnected q p))

/-- The `join-room` handler of `src/server/index.js`:
```
const safeRoomId = roomId.replace(/[^a-zA-Z0-9-]/g, '');
if (currentRoom) handleLeaveRoom();
currentRoom = safeRoomId;
socket.join(safeRoomId);
if (!rooms.has(safeRoomId)) rooms.set(safeRoomId, new Set());
rooms.get(safeRoomId).add(socket.id);
const users = Array.from(rooms.get(safeRoomId));
socket.emit('existing-users', users);
socket.to(safeRoomId).emit('user-connected', socket.id);
```
Again `if (currentRoom)` is a truthiness test, skipped for the empty
string.  The `existing-users` list is built after `add(socket.id)`. -/
def stepJoin (st : SState) (p : PeerId) (roomId : String) : SState × List Msg :=
  let safeRoomId := sanitize roomId
  let leaveRes :=
    match alookup st.cur p with
    | none => (st, ([] : List Msg))
    | some currentRoom =>
        if currentRoom = "" then (st, ([] : List Msg)) else handleLeaveRoom st p
  let st1 := leaveRes.1
  let leaveMsgs := leaveRes.2
  let cur' := aset st1.cur p safeRoomId
  let socketRooms' := roomsAddMember st1.socketRooms safeRoomId p
  let rooms' := roomsAddMember st1.rooms safeRoomId p
  let users := memberListOf rooms' safeRoomId
  let recips := (memberListOf socketRooms' safeRoomId).filter (fun q => q ≠ p)
  ({ rooms := rooms', cur := cur', socketRooms := socketRooms' },
   leaveMsgs ++ (Msg.existingUsers p users :: recips.map (fun q => Msg.userConnected q p)))

/-- The `disconnect` handler: `handleLeaveRoom()`, after which socket.io
removes the socket from all of its rooms. -/
def stepDisconnect (st : SState) (p : PeerId) : SState × List Msg :=
  let st1 := (handleLeaveRoom st p).1
  ({ st1 with socketRooms := socketRoomsPurge st1.socketRooms p },
   (handleLeaveRoom st p).2)

/-- Socket events processed by the server. -/
inductive Ev : Type
  | join (p : PeerId) (roomId : String)
  | leave (p : PeerId)
  | disconnect (p : PeerId)
  deriving DecidableEq, Repr

def stepS (st : SState) : Ev → SState × List Msg
  | Ev.join p roomId => stepJoin st p roomId
  | Ev.leave p => handleLeaveRoom st p
  | Ev.disconnect p => stepDisconnect st p

def runSFrom (st : SState) : List Ev → SState
  | [] => st
  | e :: t => runSFrom (stepS st e).1 t

def runS (t : List Ev) : SState := runSFrom initS t

def runMsgsFrom (st : SState) : List Ev → List Msg
  | [] => []
  | e :: t => (stepS st e).2 ++ runMsgsFrom (stepS st e).1 t

def runMsgs (t : List Ev) : List Msg := runMsgsFrom initS t

/-- `function isValidTarget(target)` from `src/server/index.js`:
```
if (!currentRoom || !rooms.has(currentRoom)) return false;
const roomUsers = rooms.get(currentRoom);
if (!roomUsers.has(target)) return false;
return true;
```
`!currentRoom` is true both for `null` and for the empty string. -/
def isValidTarget (st : SState) (sender target : PeerId) : Bool :=
  match alookup st.cur sender with
  | none => false
  | some currentRoom =>
      if currentRoom = "" then false
      else
        match alookup st.rooms currentRoom with
        | none => false
        | some roomUsers => roomUsers.contains target

/-- The `offer` handler: validate, then `io.to(target).emit('offer', ...)`. -/
def relayOffer (st : SState) (sender target : PeerId) (description : Nat) : List Msg :=
  if isValidTarget st sender target then [Msg.offer target sender description] else []

/-- The `answer` handler: validate, then `io.to(target).emit('answer', ...)`. -/
def relayAnswer (st : SState) (sender target : PeerId) (description : Nat) : List Msg :=
  if isValidTarget st sender target then [Msg.answer target sender description] else []

/-- The `ice-candidate` handler: validate, then relay to the target. -/
def relayIceCandidate (st : SState) (sender target : PeerId) (candidate : Nat) : List Msg :=
  if isValidTarget st sender target then [Msg.iceCandidate target sender candidate] else []

/-! ## Client model (`src/public/main.js`)

`RTCPeerConnection` is abstracted by its signaling state, its two session
descriptions and its candidate bookkeeping; session descriptions and
candidates are numbers.  Browser signaling-state rules: `setLocalDescription`
of an offer moves `stable` to `have-local-offer`; `setRemoteDescription` of
an offer moves `stable` to `have-remote-offer` and rejects in
`have-local-offer`; `setRemoteDescription` of an answer moves
`have-local-offer` to `stable` and rejects elsewhere; `createAnswer` /
`setLocalDescription` of an answer requires `have-remote-offer` and moves to
`stable`.  A rejected await lands in the handler's `catch` block, which only
logs. -/

inductive SigState : Type
  | stable
  | haveLocalOffer
  | haveRemoteOffer
  deriving DecidableEq, Repr

/-- One `RTCPeerConnection` as the client decorates it: `userId` and
`queuedCandidates` are fields the code attaches to the connection object;
`appliedCandidates` records the calls to `addIceCandidate`; `closed` records
`close()`. -/
structure PCState where
  userId : PeerId
  localDescription : Option Nat
  remoteDescription : Option Nat
  signalingState : SigState
  queuedCandidates : List Nat
  appliedCandidates : List Nat
  closed : Bool
  deriving DecidableEq, Repr

/-- Client state: `this.peers` (`Map<userId, RTCPeerConnection>`, modelled as
a map to indices into `conns`) and `conns`, the list of every connection ever
constructed, indexed by creation order. -/
structure CState where
  peers : List (PeerId × Nat)
  conns : List PCState
  deriving DecidableEq, Repr

def initC : CState := ⟨[], []⟩

/-- Update the connection at an index, when it exists. -/
def updConn (st : CState) (i : Nat) (f : PCState → PCState) : CState :=
  match st.conns[i]? with
  | none => st
  | some pc => { st with conns := st.conns.set i (f pc) }

/-- `createPeerConnection(userId)`: construct a fresh connection
(`queuedCandidates = []`, `userId` attached), store it with
`this.peers.set(userId, pc)` and return it. -/
def createPeerConnection (st : CState) (userId : PeerId) : CState × Nat :=
  let i := st.conns.length
  let pc : PCState :=
    { userId := userId, localDescription := none, remoteDescription := none,
      signalingState := SigState.stable, queuedCandidates := [],
      appliedCandidates := [], closed := false }
  ({ peers := aset st.peers userId i, conns := st.conns ++ [pc] }, i)

/-- The `if (this.peers.has(u)) { this.peers.get(u).close(); this.peers.delete(u); }`
idiom shared by `connectToNewUser`, `handleConnectionFailure` and
`handleUserDisconnection`. -/
def closeAndDelete (st : CState) (userId : PeerId) : CState :=
  match alookup st.peers userId with
  | none => st
  | some i =>
      let st' := updConn st i (fun pc => { pc with closed := true })
      { st' with peers := aremove st'.peers userId }

/-- `connectToNewUser(userId)`: close and delete any existing connection,
create a new one, `createOffer()` and `setLocalDescription(offer)`, then emit
the offer. -/
def connectToNewUser (st : CState) (userId : PeerId) (offerSdp : Nat) : CState :=
  let st1 := closeAndDelete st userId
  let (st2, i) := createPeerConnection st1 userId
  updConn st2 i (fun pc =>
    { pc with localDescription := some offerSdp,
              signalingState := SigState.haveLocalOffer })

/-- The `offer` socket handler:
```
let pc = this.peers.get(offerer) || this.createPeerConnection(offerer);
if (!pc.remoteDescription) await pc.setRemoteDescription(description);
const answer = await pc.createAnswer();
await pc.setLocalDescription(answer);
socket.emit('answer', ...);
```
A rejected `await` (glare: `setRemoteDescription` of an offer while in
`have-local-offer`, or `createAnswer` outside `have-remote-offer`) is caught,
leaving the state reached so far. -/
def handleOffer (st : CState) (offerer : PeerId) (description answerSdp : Nat) : CState :=
  let found :=
    match alookup st.peers offerer with
    | some i => (st, i)
    | none => createPeerConnection st offerer
  let st1 := found.1
  let i := found.2
  match st1.conns[i]? with
  | none => st1
  | some pc =>
      if pc.remoteDescription = none then
        if pc.signalingState = SigState.stable then
          let st2 := updConn st1 i (fun q =>
            { q with remoteDescription := some description,
                     signalingState := SigState.haveRemoteOffer })
          updConn st2 i (fun q =>
            { q with localDescription := some answerSdp,
                     signalingState := SigState.stable })
        else st1
      else
        if pc.signalingState = SigState.haveRemoteOffer then
          updConn st1 i (fun q =>
            { q with localDescription := some answerSdp,
                     signalingState := SigState.stable })
        else st1

/-- The `answer` socket handler:
```
const pc = this.peers.get(answerer);
if (!pc) return;
if (pc.signalingState === "stable") return;   // ignore duplicate answer
await pc.setRemoteDescription(description);
```
`setRemoteDescription` of an answer succeeds only in `have-local-offer`;
in `have-remote-offer` it rejects and the `catch` block only logs. -/
def handleAnswer (st : CState) (answerer : PeerId) (description : Nat) : CState :=
  match alookup st.peers answerer with
  | none => st
  | some i =>
      match st.conns[i]? with
      | none => st
      | some pc =>
          if pc.signalingState = SigState.stable then st
          else if pc.signalingState = SigState.haveLocalOffer then
            updConn st i (fun q =>
              { q with remoteDescription := some description,
                       signalingState := SigState.stable })
          else st

/-- The `ice-candidate` socket handler:
```
const pc = this.peers.get(sender);
if (!pc) return;
if (pc.remoteDescription && pc.localDescription) {
    await pc.addIceCandidate(new RTCIceCandidate(candidate));
} else {
    pc.queuedCandidates = pc.queuedCandidates || [];
    pc.queuedCandidates.push(candidate);
}
```
No other line of `src/public/main.js` reads `queuedCandidates`. -/
def handleIceCandidate (st : CState) (sender : PeerId) (candidate : Nat) : CState :=
  match alookup st.peers sender with
  | none => st
  | some i =>
      match st.conns[i]? with
      | none => st
      | some pc =>
          if pc.remoteDescription.isSome && pc.localDescription.isSome then
            updConn st i (fun q =>
              { q with appliedCandidates := q.appliedCandidates ++ [candidate] })
          else
            updConn st i (fun q =>
              { q with queuedCandidates := q.queuedCandidates ++ [candidate] })

/-- `handleUserDisconnection(userId)`: close and delete the connection. -/
def handleUserDisconnection (st : CState) (userId : PeerId) : CState :=
  closeAndDelete st userId

/-- The immediate part of `handleConnectionFailure(userId)`: close and delete;
the delayed `connectToNewUser` reruns as its own event. -/
def handleConnectionFailure (st : CState) (userId : PeerId) : CState :=
  closeAndDelete st userId

/-- `cleanup()`: `this.peers.forEach(c => c.close()); this.peers.clear();`. -/
def cleanupPeers (st : CState) : CState :=
  let conns' := st.peers.foldl
    (fun cs entry =>
      match cs[entry.2]? with
      | none => cs
      | some pc => cs.set entry.2 { pc with closed := true })
    st.conns
  { peers := [], conns := conns' }

/-- Client-side events touching the peer map. -/
inductive CEv : Type
  | connectToNewUser (userId : PeerId) (offerSdp : Nat)
  | offerMsg (offerer : PeerId) (description answerSdp : Nat)
  | answerMsg (answerer : PeerId) (description : Nat)
  | iceCandidateMsg (sender : PeerId) (candidate : Nat)
  | connectionFailed (userId : PeerId)
  | reconnectFired (userId : PeerId) (offerSdp : Nat)
  | userDisconnected (userId : PeerId)
  | cleanup
  deriving DecidableEq, Repr

def stepC (st : CState) : CEv → CState
  | CEv.connectToNewUser u o => connectToNewUser st u o
  | CEv.offerMsg u d a => handleOffer st u d a
  | CEv.answerMsg u d => handleAnswer st u d
  | CEv.iceCandidateMsg u c => handleIceCandidate st u c
  | CEv.connectionFailed u => handleConnectionFailure st u
  | CEv.reconnectFired u o => connectToNewUser st u o
  | CEv.userDisconnected u => handleUserDisconnection st u
  | CEv.cleanup => cleanupPeers st

def runCFrom (st : CState) : List CEv → CState
  | [] => st
  | e :: t => runCFrom (stepC st e) t

def runC (t : List CEv) : CState := runCFrom initC t

/-! ## RPC model (SFU client `client.js`, `src/unnamed/part_000`) -/

/-- The five client-initiated RPC operation types. -/
inductive RpcKind : Type
  | joinRoom
  | createTransport
  | connectTransport
  | produce
  | consume
  deriving DecidableEq, Repr

/-- An acknowledgment payload: `{error: message}` or a success payload
(abstracted as a number). -/
structure RpcResponse where
  error : Option String
  payload : Nat
  deriving DecidableEq, Repr

/-- Modelled from the spec: the SFU signaling server is not present in the
repository sources (only its client `client.js` is); per §4.5 it "must
deliver exactly one acknowledgment (success payload or an error payload) for
every such request", so a request produces the one-element acknowledgment
list for its handler's response. -/
def serverAcks (handler : RpcKind → Nat → RpcResponse) (kind : RpcKind) (data : Nat) :
    List RpcResponse :=
  [handler kind data]

/-- A promise is settled at most once; later `resolve` / `reject` calls are
ignored. -/
inductive PromiseState : Type
  | pending
  | resolvedWith (response : RpcResponse)
  | rejectedWith (message : String)
  deriving DecidableEq, Repr

/-- JS truthiness of `response.error`: `undefined` and the empty string are
falsy. -/
def jsTruthy : Option String → Bool
  | none => false
  | some s => s ≠ ""

/-- The acknowledgment callback of `request` in `client.js`:
```
(response) => {
    if (response.error) reject(new Error(response.error));
    else resolve(response);
}
```
composed with the settle-once semantics of the surrounding `Promise`. -/
def requestCallback (p : PromiseState) (response : RpcResponse) : PromiseState :=
  match p with
  | PromiseState.pending =>
      if jsTruthy response.error then
        PromiseState.rejectedWith (response.error.getD "")
      else PromiseState.resolvedWith response
  | settled => settled

/-- `request(type, data)`: the promise after every acknowledgment for the
request has invoked the callback. -/
def runRequest (handler : RpcKind → Nat → RpcResponse) (kind : RpcKind) (data : Nat) :
    PromiseState :=
  (serverAcks handler kind data).foldl requestCallback PromiseState.pending

/-! ## Spec-side definitions and statement helpers -/

/-- Spec-side per-peer room assignment, following the spec's words: a `join`
places the peer in the (sanitized) room, implicitly leaving any previous
one; a `leave` or `disconnect` removes the peer from its room. -/
def specCurStep (c : List (PeerId × RoomId)) : Ev → List (PeerId × RoomId)
  | Ev.join p q => aset c p (sanitize q)
  | Ev.leave p => aremove c p
  | Ev.disconnect p => aremove c p

def specCurFrom (c : List (PeerId × RoomId)) : List Ev → List (PeerId × RoomId)
  | [] => c
  | e :: t => specCurFrom (specCurStep c e) t

def specCur (t : List Ev) : List (PeerId × RoomId) := specCurFrom [] t

/-- Spec-side member set of a room, following the spec's words: "the set of
peers that joined it and have not since left or disconnected". -/
def specMembers (t : List Ev) (r : RoomId) : List PeerId :=
  ((specCur t).filter (fun pr => pr.2 = r)).map Prod.fst

/-- Whether an event is a join whose requested name sanitizes to a nonempty
room name. -/
def evJoinNonempty : Ev → Bool
  | Ev.join _ q => decide (sanitize q ≠ "")
  | _ => true

/-- Every join of the trace lands in a room with a nonempty sanitized name. -/
def allJoinsNonempty (t : List Ev) : Bool := t.all evJoinNonempty

/-- The `existing-users` messages of an output trace, with their recipients. -/
def existingUsersSent (msgs : List Msg) : List (PeerId × List PeerId) :=
  msgs.filterMap (fun m =>
    match m with
    | Msg.existingUsers dest users => some (dest, users)
    | _ => none)

/-- Recognizer for `user-connected` messages. -/
def isUserConnectedMsg : Msg → Bool
  | Msg.userConnected _ _ => true
  | _ => false

/-- Reachability invariant of the signaling server, for well-formed traces
(all joined rooms have nonempty sanitized names): the socket.io rooms mirror
the registry, the registry holds no empty-named and no empty room and no
duplicate membership, and registry membership coincides with the per-socket
`currentRoom` variables. -/
structure SInv (st : SState) : Prop where
  sioEq : st.socketRooms = st.rooms
  keys : (st.rooms.map Prod.fst).Nodup
  roomsOk : ∀ r us, alookup st.rooms r = some us → r ≠ "" ∧ us ≠ [] ∧ us.Nodup
  curOk : ∀ p r, alookup st.cur p = some r → r ≠ "" ∧ p ∈ memberList st r
  memOk : ∀ r q, q ∈ memberList st r → alookup st.cur q = some r

/-- Client-side invariant: every open connection is the one its user id maps
to in `this.peers`. -/
def CInv (st : CState) : Prop :=
  ∀ i pc, st.conns[i]? = some pc → pc.closed = false →
    alookup st.peers pc.userId = some i

/-! ## Association-list lemmas -/

section AssocLemmas

variable {α β : Type} [DecidableEq α]

theorem alookup_aset_self (m : List (α × β)) (k : α) (v : β) :
    alookup (aset m k v) k = some v := by
  induction m with
  | nil => simp [aset, alookup]
  | cons kv rest ih =>
      obtain ⟨k', v'⟩ := kv
      by_cases h : k' = k
      · simp [aset, h, alookup]
      · simp [aset, h, alookup, ih]

theorem alookup_aset_ne (m : List (α × β)) (k : α) (v : β) (a : α) (h : a ≠ k) :
    alookup (aset m k v) a = alookup m a := by
  induction m with
  | nil => simp [aset, alookup, Ne.symm h]
  | cons kv rest ih =>
      obtain ⟨k', v'⟩ := kv
      by_cases hk : k' = k
      · subst hk
        simp [aset, alookup, Ne.symm h]
      · simp only [aset, if_neg hk, alookup]
        by_cases ha : k' = a
        · simp [ha]
        · simp [ha, ih]

theorem alookup_aremove_self (m : List (α × β)) (k : α) :
    alookup (aremove m k) k = none := by
  induction m with
  | nil => simp [aremove, alookup]
  | cons kv rest ih =>
      obtain ⟨k', v'⟩ := kv
      by_cases h : k' = k
      · simpa [aremove, List.filter_cons, h] using ih
      · simpa [aremove, List.filter_cons, h, alookup] using ih

theorem alookup_aremove_ne (m : List (α × β)) (k a : α) (h : a ≠ k) :
    alookup (aremove m k) a = alookup m a := by
  induction m with
  | nil => simp [aremove, alookup]
  | cons kv rest ih =>
      obtain ⟨k', v'⟩ := kv
      by_cases hk : k' = k
      · subst hk
        simpa [aremove, List.filter_cons, alookup, Ne.symm h] using ih
      · by_cases ha : k' = a
        · subst ha
          simp [aremove, List.filter_cons, hk, alookup]
        · simpa [aremove, List.filter_cons, hk, alookup, ha] using ih

theorem alookup_eq_none_iff (m : List (α × β)) (k : α) :
    alookup m k = none ↔ k ∉ m.map Prod.fst := by
  induction m with
  | nil => simp [alookup]
  | cons kv rest ih =>
      obtain ⟨k', v'⟩ := kv
      by_cases h : k' = k
      · simp [alookup, h]
      · simp [alookup, h, ih, Ne.symm h]

theorem mem_of_alookup_eq_some {m : List (α × β)} {k : α} {v : β}
    (h : alookup m k = some v) : (k, v) ∈ m := by
  induction m with
  | nil => simp [alookup] at h
  | cons kv rest ih =>
      obtain ⟨k', v'⟩ := kv
      by_cases hk : k' = k
      · subst hk
        simp [alookup] at h
        simp [h]
      · simp only [alookup, if_neg hk] at h
        exact List.mem_cons_of_mem _ (ih h)

theorem alookup_of_mem_of_nodup {m : List (α × β)} {k : α} {v : β}
    (hn : (m.map Prod.fst).Nodup) (h : (k, v) ∈ m) : alookup m k = some v := by
  induction m with
  | nil => simp at h
  | cons kv rest ih =>
      obtain ⟨k', v'⟩ := kv
      simp only [List.map_cons, List.nodup_cons] at hn
      rcases List.mem_cons.mp h with h1 | h1
      · obtain ⟨rfl, rfl⟩ := Prod.mk.injEq .. ▸ h1
        simp [alookup]
      · have hk : k' ≠ k := by
          rintro rfl
          exact hn.1 (List.mem_map.mpr ⟨(k', v), h1, rfl⟩)
        simp only [alookup, if_neg hk]
        exact ih hn.2 h1

theorem keys_aset_of_lookup_some {m : List (α × β)} {k : α} {w : β} (v : β)
    (h : alookup m k = some w) : (aset m k v).map Prod.fst = m.map Prod.fst := by
  induction m with
  | nil => simp [alookup] at h
  | cons kv rest ih =>
      obtain ⟨k', v'⟩ := kv
      by_cases hk : k' = k
      · simp [aset, hk]
      · simp only [alookup, if_neg hk] at h
        simp [aset, hk, ih h]

theorem keys_aset_of_lookup_none {m : List (α × β)} {k : α} (v : β)
    (h : alookup m k = none) : (aset m k v).map Prod.fst = m.map Prod.fst ++ [k] := by
  induction m with
  | nil => simp [aset]
  | cons kv rest ih =>
      obtain ⟨k', v'⟩ := kv
      by_cases hk : k' = k
      · simp [alookup, hk] at h
      · simp only [alookup, if_neg hk] at h
        simp [aset, hk, ih h]

theorem keys_aremove (m : List (α × β)) (k : α) :
    (aremove m k).map Prod.fst = (m.map Prod.fst).filter (fun a => a ≠ k) := by
  induction m with
  | nil => simp [aremove]
  | cons kv rest ih =>
      obtain ⟨k', v'⟩ := kv
      by_cases hk : k' = k
      · simpa [aremove, List.filter_cons, hk] using ih
      · simpa [aremove, List.filter_cons, hk] using ih

theorem nodup_keys_aset {m : List (α × β)} (k : α) (v : β)
    (hn : (m.map Prod.fst).Nodup) : ((aset m k v).map Prod.fst).Nodup := by
  cases h : alookup m k with
  | none =>
      rw [keys_aset_of_lookup_none v h]
      refine List.nodup_append.mpr ⟨hn, List.nodup_singleton k, ?_⟩
      intro a ha hb
      rw [List.mem_singleton] at hb
      exact (alookup_eq_none_iff m k).mp h (hb ▸ ha)
  | some w =>
      rw [keys_aset_of_lookup_some v h]
      exact hn

theorem nodup_keys_aremove {m : List (α × β)} (k : α)
    (hn : (m.map Prod.fst).Nodup) : ((aremove m k).map Prod.fst).Nodup := by
  rw [keys_aremove]
  exact hn.filter _

end AssocLemmas

/-! ## `addUnique`, member-list and room-operation lemmas -/

theorem mem_addUnique {α : Type} [DecidableEq α] (l : List α) (a x : α) :
    x ∈ addUnique l a ↔ x ∈ l ∨ x = a := by
  unfold addUnique
  by_cases h : a ∈ l
  · simp only [if_pos h]
    constructor
    · exact Or.inl
    · rintro (hx | rfl)
      · exact hx
      · exact h
  · simp [if_neg h]

theorem addUnique_ne_nil {α : Type} [DecidableEq α] (l : List α) (a : α) :
    addUnique l a ≠ [] := by
  unfold addUnique
  by_cases h : a ∈ l
  · simp only [if_pos h]
    intro hnil
    rw [hnil] at h
    exact (List.not_mem_nil a) h
  · simp [if_neg h]

theorem nodup_addUnique {α : Type} [DecidableEq α] {l : List α} (a : α)
    (hn : l.Nodup) : (addUnique l a).Nodup := by
  unfold addUnique
  by_cases h : a ∈ l
  · simpa [if_pos h] using hn
  · simp only [if_neg h]
    refine List.nodup_append.mpr ⟨hn, List.nodup_singleton a, ?_⟩
    intro x hx hs
    rw [List.mem_singleton] at hs
    exact h (hs ▸ hx)

theorem alookup_of_mem_memberListOf {m : List (RoomId × List PeerId)} {r : RoomId}
    {q : PeerId} (h : q ∈ memberListOf m r) :
    alookup m r = some (memberListOf m r) := by
  unfold memberListOf at *
  cases hl : alookup m r with
  | none => rw [hl] at h; simp at h
  | some us => simp [hl]

theorem alookup_addMember_self (m : List (RoomId × List PeerId)) (r : RoomId) (p : PeerId) :
    alookup (roomsAddMember m r p) r = some (addUnique (memberListOf m r) p) := by
  unfold roomsAddMember memberListOf
  cases hl : alookup m r with
  | none => simp [alookup_aset_self, addUnique]
  | some us => simp [alookup_aset_self]

theorem alookup_addMember_ne (m : List (RoomId × List PeerId)) (r : RoomId) (p : PeerId)
    (r' : RoomId) (h : r' ≠ r) :
    alookup (roomsAddMember m r p) r' = alookup m r' := by
  unfold roomsAddMember
  cases hl : alookup m r with
  | none => exact alookup_aset_ne m r [p] r' h
  | some us => exact alookup_aset_ne m r _ r' h

theorem alookup_removeMember_self {m : List (RoomId × List PeerId)} {r : RoomId}
    {us : List PeerId} (p : PeerId) (h : alookup m r = some us) :
    alookup (roomsRemoveMember m r p) r =
      (if us.filter (fun q => q ≠ p) = [] then none
       else some (us.filter (fun q => q ≠ p))) := by
  unfold roomsRemoveMember
  rw [h]
  show alookup
      (if us.filter (fun q => q ≠ p) = [] then aremove m r
       else aset m r (us.filter (fun q => q ≠ p))) r = _
  by_cases he : us.filter (fun q => q ≠ p) = []
  · rw [if_pos he, if_pos he, alookup_aremove_self]
  · rw [if_neg he, if_neg he, alookup_aset_self]

theorem alookup_removeMember_ne (m : List (RoomId × List PeerId)) (r : RoomId) (p : PeerId)
    (r' : RoomId) (h : r' ≠ r) :
    alookup (roomsRemoveMember m r p) r' = alookup m r' := by
  unfold roomsRemoveMember
  cases hl : alookup m r with
  | none => rfl
  | some us =>
      by_cases he : us.filter (fun q => q ≠ p) = []
      · simp only [he, if_pos]
        exact alookup_aremove_ne m r r' h
      · simp only [he, if_neg, ite_false]
        exact alookup_aset_ne m r _ r' h

theorem nodup_keys_addMember {m : List (RoomId × List PeerId)} (r : RoomId) (p : PeerId)
    (hn : (m.map Prod.fst).Nodup) : ((roomsAddMember m r p).map Prod.fst).Nodup := by
  unfold roomsAddMember
  cases alookup m r with
  | none => exact nodup_keys_aset r [p] hn
  | some us => exact nodup_keys_aset r _ hn

theorem nodup_keys_removeMember {m : List (RoomId × List PeerId)} (r : RoomId) (p : PeerId)
    (hn : (m.map Prod.fst).Nodup) : ((roomsRemoveMember m r p).map Prod.fst).Nodup := by
  unfold roomsRemoveMember
  cases alookup m r with
  | none => exact hn
  | some us =>
      by_cases he : us.filter (fun q => q ≠ p) = []
      · simp only [he, if_pos]
        exact nodup_keys_aremove r hn
      · simp only [he, if_neg, ite_false]
        exact nodup_keys_aset r _ hn

theorem socketRoomsPurge_eq_self {m : List (RoomId × List PeerId)} {p : PeerId}
    (h : ∀ ru ∈ m, p ∉ ru.2 ∧ ru.2 ≠ []) : socketRoomsPurge m p = m := by
  induction m with
  | nil => rfl
  | cons ru rest ih =>
      obtain ⟨hp, hne⟩ := h ru (List.mem_cons_self ru rest)
      have hfil : ru.2.filter (fun q => q ≠ p) = ru.2 := by
        refine List.filter_eq_self.mpr ?_
        intro a ha
        simp only [decide_eq_true_eq]
        rintro rfl
        exact hp ha
      have hrest : socketRoomsPurge rest p = rest :=
        ih fun x hx => h x (List.mem_cons_of_mem ru hx)
      simp only [socketRoomsPurge, List.filterMap_cons] at *
      rw [hfil]
      simp only [hne, ite_false, if_neg hne]
      rw [hrest]

/-! ## Case-analysis lemmas for the server handlers -/

theorem handleLeaveRoom_cases (st : SState) (p : PeerId) :
    handleLeaveRoom st p = (st, []) ∨
    (∃ r, alookup st.cur p = some r ∧ r ≠ "" ∧
      handleLeaveRoom st p =
        ({ rooms := roomsRemoveMember st.rooms r p,
           cur := aremove st.cur p,
           socketRooms := roomsRemoveMember st.socketRooms r p },
         ((memberListOf st.socketRooms r).filter (fun q => q ≠ p)).map
           (fun q => Msg.userDisconnected q p))) := by
  unfold handleLeaveRoom
  cases hc : alookup st.cur p with
  | none => exact Or.inl rfl
  | some r =>
      by_cases hr : r = ""
      · exact Or.inl (by simp [hr])
      · cases hrr : alookup st.rooms r with
        | none => exact Or.inl (by simp [hr, hrr])
        | some us =>
            refine Or.inr ⟨r, rfl, hr, ?_⟩
            simp [hr, hrr]

theorem stepJoin_cases (st : SState) (p : PeerId) (q0 : String) :
    ∃ st1 leaveMsgs,
      stepJoin st p q0 =
        ({ rooms := roomsAddMember st1.rooms (sanitize q0) p,
           cur := aset st1.cur p (sanitize q0),
           socketRooms := roomsAddMember st1.socketRooms (sanitize q0) p },
         leaveMsgs ++ (Msg.existingUsers p
             (addUnique (memberListOf st1.rooms (sanitize q0)) p) ::
           ((addUnique (memberListOf st1.socketRooms (sanitize q0)) p).filter
               (fun q => q ≠ p)).map
             (fun q => Msg.userConnected q p))) ∧
      ((st1 = st ∧ leaveMsgs = ([] : List Msg) ∧
          (alookup st.cur p = none ∨ alookup st.cur p = some "")) ∨
        (st1 = (handleLeaveRoom st p).1 ∧ leaveMsgs = (handleLeaveRoom st p).2 ∧
          ∃ r, alookup st.cur p = some r ∧ r ≠ "")) := by
  cases hc : alookup st.cur p with
  | none =>
      refine ⟨st, [], ?_, Or.inl ⟨rfl, rfl, Or.inl rfl⟩⟩
      unfold stepJoin
      rw [hc]
      simp [memberListOf, alookup_addMember_self]
  | some r =>
      by_cases hr : r = ""
      · subst hr
        refine ⟨st, [], ?_, Or.inl ⟨rfl, rfl, Or.inr rfl⟩⟩
        unfold stepJoin
        rw [hc]
        simp [memberListOf, alookup_addMember_self]
      · refine ⟨(handleLeaveRoom st p).1, (handleLeaveRoom st p).2, ?_,
          Or.inr ⟨rfl, rfl, r, rfl, hr⟩⟩
        unfold stepJoin
        rw [hc]
        simp [hr, memberListOf, alookup_addMember_self]

theorem existingUsersSent_map_userDisconnected (l : List PeerId) (p : PeerId) :
    existingUsersSent (l.map (fun q => Msg.userDisconnected q p)) = [] := by
  induction l with
  | nil => rfl
  | cons a rest ih => simp [existingUsersSent, List.filterMap_cons] at ih ⊢

theorem existingUsersSent_map_userConnected (l : List PeerId) (p : PeerId) :
    existingUsersSent (l.map (fun q => Msg.userConnected q p)) = [] := by
  induction l with
  | nil => rfl
  | cons a rest ih => simp [existingUsersSent, List.filterMap_cons] at ih ⊢

theorem memberListOf_removeMember_self (m : List (RoomId × List PeerId)) (r : RoomId)
    (p : PeerId) :
    memberListOf (roomsRemoveMember m r p) r = (memberListOf m r).filter (fun q => q ≠ p) := by
  cases hl : alookup m r with
  | none =>
      unfold roomsRemoveMember
      rw [hl]
      unfold memberListOf
      rw [hl]
      rfl
  | some us =>
      unfold memberListOf
      rw [alookup_removeMember_self p hl, hl]
      by_cases hfe : us.filter (fun q => q ≠ p) = []
      · rw [if_pos hfe]
        simp only [Option.getD_none, Option.getD_some]
        exact hfe.symm
      · rw [if_neg hfe]
        simp only [Option.getD_some]

theorem memberListOf_removeMember_ne (m : List (RoomId × List PeerId)) (r : RoomId)
    (p : PeerId) (r' : RoomId) (h : r' ≠ r) :
    memberListOf (roomsRemoveMember m r p) r' = memberListOf m r' := by
  unfold memberListOf
  rw [alookup_removeMember_ne m r p r' h]

theorem memberListOf_addMember_self (m : List (RoomId × List PeerId)) (r : RoomId)
    (p : PeerId) :
    memberListOf (roomsAddMember m r p) r = addUnique (memberListOf m r) p := by
  unfold memberListOf
  rw [alookup_addMember_self]
  rfl

theorem memberListOf_addMember_ne (m : List (RoomId × List PeerId)) (r : RoomId)
    (p : PeerId) (r' : RoomId) (h : r' ≠ r) :
    memberListOf (roomsAddMember m r p) r' = memberListOf m r' := by
  unfold memberListOf
  rw [alookup_addMember_ne m r p r' h]

theorem nodup_memberList (st : SState) (hInv : SInv st) (r : RoomId) :
    (memberList st r).Nodup := by
  unfold memberList memberListOf
  cases hl : alookup st.rooms r with
  | none => simp
  | some us =>
      simp only [Option.getD_some]
      exact (hInv.roomsOk r us hl).2.2

/-- Under the invariant, `handleLeaveRoom` either does nothing (no current
room) or removes the peer from its current room, notifying the other
registry members of that room. -/
theorem handleLeaveRoom_cases_inv (st : SState) (p : PeerId) (hInv : SInv st) :
    (alookup st.cur p = none ∧ handleLeaveRoom st p = (st, [])) ∨
    (∃ r, alookup st.cur p = some r ∧ r ≠ "" ∧ p ∈ memberList st r ∧
      handleLeaveRoom st p =
        ({ rooms := roomsRemoveMember st.rooms r p,
           cur := aremove st.cur p,
           socketRooms := roomsRemoveMember st.rooms r p },
         ((memberList st r).filter (fun q => q ≠ p)).map
           (fun q => Msg.userDisconnected q p))) := by
  cases hc : alookup st.cur p with
  | none =>
      refine Or.inl ⟨rfl, ?_⟩
      unfold handleLeaveRoom
      rw [hc]
  | some r =>
      obtain ⟨hne, hmem⟩ := hInv.curOk p r hc
      have hrr : alookup st.rooms r = some (memberList st r) :=
        alookup_of_mem_memberListOf hmem
      refine Or.inr ⟨r, rfl, hne, hmem, ?_⟩
      unfold handleLeaveRoom
      rw [hc]
      simp only [if_neg hne, hrr, hInv.sioEq]
      rfl

theorem cur_none_after_leave (st : SState) (p : PeerId) (hInv : SInv st) :
    alookup (handleLeaveRoom st p).1.cur p = none := by
  rcases handleLeaveRoom_cases_inv st p hInv with ⟨hc, heq⟩ | ⟨r, hc, hne, hmem, heq⟩
  · rw [heq]
    exact hc
  · rw [heq]
    exact alookup_aremove_self st.cur p

theorem sInv_handleLeaveRoom (st : SState) (p : PeerId) (hInv : SInv st) :
    SInv (handleLeaveRoom st p).1 := by
  rcases handleLeaveRoom_cases_inv st p hInv with ⟨hc, heq⟩ | ⟨r, hc, hne, hmem, heq⟩
  · rw [heq]
    exact hInv
  · rw [heq]
    have hrr : alookup st.rooms r = some (memberList st r) :=
      alookup_of_mem_memberListOf hmem
    obtain ⟨hrne, hrnil, hrnodup⟩ := hInv.roomsOk r (memberList st r) hrr
    constructor
    · rfl
    · exact nodup_keys_removeMember r p hInv.keys
    · intro r' us' h'
      by_cases hr' : r' = r
      · subst hr'
        rw [alookup_removeMember_self p hrr] at h'
        by_cases hfe : (memberList st r').filter (fun q => q ≠ p) = []
        · rw [if_pos hfe] at h'
          cases h'
        · rw [if_neg hfe] at h'
          obtain rfl := (Option.some.inj h').symm
          exact ⟨hrne, hfe, hrnodup.filter _⟩
      · rw [alookup_removeMember_ne _ _ _ _ hr'] at h'
        exact hInv.roomsOk r' us' h'
    · intro p' r' h'
      have hp' : p' ≠ p := by
        rintro rfl
        rw [alookup_aremove_self] at h'
        cases h'
      rw [alookup_aremove_ne _ _ _ hp'] at h'
      obtain ⟨h1, h2⟩ := hInv.curOk p' r' h'
      refine ⟨h1, ?_⟩
      show p' ∈ memberListOf (roomsRemoveMember st.rooms r p) r'
      by_cases hr' : r' = r
      · subst hr'
        rw [memberListOf_removeMember_self]
        exact List.mem_filter.mpr ⟨h2, by simp [hp']⟩
      · rw [memberListOf_removeMember_ne _ _ _ _ hr']
        exact h2
    · intro r' q hq
      replace hq : q ∈ memberListOf (roomsRemoveMember st.rooms r p) r' := hq
      by_cases hr' : r' = r
      · subst hr'
        rw [memberListOf_removeMember_self] at hq
        obtain ⟨hq1, hq2⟩ := List.mem_filter.mp hq
        have hq2' : q ≠ p := by simpa using hq2
        rw [alookup_aremove_ne _ _ _ hq2']
        exact hInv.memOk r' q hq1
      · rw [memberListOf_removeMember_ne _ _ _ _ hr'] at hq
        have hcq := hInv.memOk r' q hq
        have hq' : q ≠ p := by
          rintro rfl
          rw [hc] at hcq
          exact hr' (Option.some.inj hcq).symm
        rw [alookup_aremove_ne _ _ _ hq']
        exact hcq

theorem sInv_stepJoin (st : SState) (p : PeerId) (q0 : String) (hInv : SInv st)
    (hq : sanitize q0 ≠ "") : SInv (stepJoin st p q0).1 := by
  obtain ⟨st1, lm, heq, hcase⟩ := stepJoin_cases st p q0
  have hInv1 : SInv st1 := by
    rcases hcase with ⟨rfl, -, -⟩ | ⟨rfl, -, -⟩
    · exact hInv
    · exact sInv_handleLeaveRoom st p hInv
  have hcur1 : alookup st1.cur p = none := by
    rcases hcase with ⟨rfl, -, hc | hc⟩ | ⟨rfl, -, -⟩
    · exact hc
    · exact absurd rfl (hInv.curOk p "" hc).1
    · exact cur_none_after_leave st p hInv
  rw [heq]
  constructor
  · show roomsAddMember st1.socketRooms (sanitize q0) p =
      roomsAddMember st1.rooms (sanitize q0) p
    rw [hInv1.sioEq]
  · exact nodup_keys_addMember (sanitize q0) p hInv1.keys
  · intro r' us' h'
    by_cases hr' : r' = sanitize q0
    · subst hr'
      rw [alookup_addMember_self] at h'
      obtain rfl := (Option.some.inj h').symm
      refine ⟨hq, addUnique_ne_nil _ p, nodup_addUnique p ?_⟩
      exact nodup_memberList st1 hInv1 (sanitize q0)
    · rw [alookup_addMember_ne _ _ _ _ hr'] at h'
      exact hInv1.roomsOk r' us' h'
  · intro p' r' h'
    by_cases hp' : p' = p
    · subst hp'
      rw [alookup_aset_self] at h'
      obtain rfl := (Option.some.inj h').symm
      refine ⟨hq, ?_⟩
      show p' ∈ memberListOf (roomsAddMember st1.rooms (sanitize q0) p') (sanitize q0)
      rw [memberListOf_addMember_self]
      exact (mem_addUnique _ p' p').mpr (Or.inr rfl)
    · rw [alookup_aset_ne _ _ _ _ hp'] at h'
      obtain ⟨h1, h2⟩ := hInv1.curOk p' r' h'
      refine ⟨h1, ?_⟩
      show p' ∈ memberListOf (roomsAddMember st1.rooms (sanitize q0) p) r'
      by_cases hr' : r' = sanitize q0
      · subst hr'
        rw [memberListOf_addMember_self]
        exact (mem_addUnique _ p p').mpr (Or.inl h2)
      · rw [memberListOf_addMember_ne _ _ _ _ hr']
        exact h2
  · intro r' q hq'
    replace hq' : q ∈ memberListOf (roomsAddMember st1.rooms (sanitize q0) p) r' := hq'
    by_cases hr' : r' = sanitize q0
    · subst hr'
      rw [memberListOf_addMember_self] at hq'
      rcases (mem_addUnique _ p q).mp hq' with hmem | rfl
      · have hcq := hInv1.memOk (sanitize q0) q hmem
        have hqp : q ≠ p := by
          rintro rfl
          rw [hcur1] at hcq
          cases hcq
        rw [alookup_aset_ne _ _ _ _ hqp]
        exact hcq
      · rw [alookup_aset_self]
    · rw [memberListOf_addMember_ne _ _ _ _ hr'] at hq'
      have hcq := hInv1.memOk r' q hq'
      have hqp : q ≠ p := by
        rintro rfl
        rw [hcur1] at hcq
        cases hcq
      rw [alookup_aset_ne _ _ _ _ hqp]
      exact hcq

theorem sInv_stepDisconnect (st : SState) (p : PeerId) (hInv : SInv st) :
    SInv (stepDisconnect st p).1 := by
  have h1 := sInv_handleLeaveRoom st p hInv
  have hcur1 := cur_none_after_leave st p hInv
  have hpurge : socketRoomsPurge (handleLeaveRoom st p).1.socketRooms p =
      (handleLeaveRoom st p).1.socketRooms := by
    apply socketRoomsPurge_eq_self
    intro ru hru
    have hl : alookup (handleLeaveRoom st p).1.rooms ru.1 = some ru.2 := by
      apply alookup_of_mem_of_nodup h1.keys
      rw [← h1.sioEq]
      exact hru
    constructor
    · intro hp
      have hmem : p ∈ memberList (handleLeaveRoom st p).1 ru.1 := by
        unfold memberList memberListOf
        rw [hl]
        exact hp
      have := h1.memOk ru.1 p hmem
      rw [hcur1] at this
      cases this
    · exact (h1.roomsOk ru.1 ru.2 hl).2.1
  show SInv { (handleLeaveRoom st p).1 with
    socketRooms := socketRoomsPurge (handleLeaveRoom st p).1.socketRooms p }
  rw [hpurge]
  exact h1

theorem sInv_stepS (st : SState) (e : Ev) (hInv : SInv st)
    (he : evJoinNonempty e = true) : SInv (stepS st e).1 := by
  cases e with
  | join p q0 =>
      have hq : sanitize q0 ≠ "" := by simpa [evJoinNonempty] using he
      exact sInv_stepJoin st p q0 hInv hq
  | leave p => exact sInv_handleLeaveRoom st p hInv
  | disconnect p => exact sInv_stepDisconnect st p hInv

theorem sInv_init : SInv initS := by
  constructor
  · rfl
  · simp [initS]
  · intro r us h
    cases h
  · intro p r h
    cases h
  · intro r q hq
    simp [initS, memberList, memberListOf, alookup] at hq

theorem sInv_runSFrom (st : SState) (t : List Ev) (hInv : SInv st)
    (ht : allJoinsNonempty t = true) : SInv (runSFrom st t) := by
  induction t generalizing st with
  | nil => exact hInv
  | cons e rest ih =>
      rw [allJoinsNonempty, List.all_cons, Bool.and_eq_true] at ht
      exact ih (stepS st e).1 (sInv_stepS st e hInv ht.1) ht.2

theorem sInv_runS (t : List Ev) (ht : allJoinsNonempty t = true) : SInv (runS t) :=
  sInv_runSFrom initS t sInv_init ht

/-! ## The server's `currentRoom` variables track the spec-side fold -/

theorem cur_equiv_runFrom (st : SState) (c : List (PeerId × RoomId)) (t : List Ev)
    (hInv : SInv st) (hc : ∀ x, alookup st.cur x = alookup c x)
    (ht : allJoinsNonempty t = true) :
    ∀ x, alookup (runSFrom st t).cur x = alookup (specCurFrom c t) x := by
  induction t generalizing st c with
  | nil => exact hc
  | cons e rest ih =>
      rw [allJoinsNonempty, List.all_cons, Bool.and_eq_true] at ht
      refine ih (stepS st e).1 (specCurStep c e) (sInv_stepS st e hInv ht.1) ?_ ht.2
      intro x
      cases e with
      | join p q0 =>
          obtain ⟨st1, lm, heq, hcase⟩ := stepJoin_cases st p q0
          have hcur' : (stepS st (Ev.join p q0)).1.cur = aset st1.cur p (sanitize q0) := by
            show (stepJoin st p q0).1.cur = _
            rw [heq]
          rw [hcur']
          show alookup (aset st1.cur p (sanitize q0)) x = alookup (aset c p (sanitize q0)) x
          by_cases hx : x = p
          · subst hx
            rw [alookup_aset_self, alookup_aset_self]
          · rw [alookup_aset_ne _ _ _ _ hx, alookup_aset_ne _ _ _ _ hx]
            rcases hcase with ⟨rfl, -, -⟩ | ⟨rfl, -, -⟩
            · exact hc x
            · rcases handleLeaveRoom_cases_inv st p hInv with ⟨-, heq2⟩ | ⟨r, -, -, -, heq2⟩
              · rw [heq2]
                exact hc x
              · rw [heq2]
                show alookup (aremove st.cur p) x = alookup c x
                rw [alookup_aremove_ne _ _ _ hx]
                exact hc x
      | leave p =>
          show alookup (handleLeaveRoom st p).1.cur x = alookup (aremove c p) x
          by_cases hx : x = p
          · rw [hx, alookup_aremove_self]
            exact cur_none_after_leave st p hInv
          · rw [alookup_aremove_ne _ _ _ hx]
            rcases handleLeaveRoom_cases_inv st p hInv with ⟨-, heq2⟩ | ⟨r, -, -, -, heq2⟩
            · rw [heq2]
              exact hc x
            · rw [heq2]
              show alookup (aremove st.cur p) x = alookup c x
              rw [alookup_aremove_ne _ _ _ hx]
              exact hc x
      | disconnect p =>
          show alookup (handleLeaveRoom st p).1.cur x = alookup (aremove c p) x
          by_cases hx : x = p
          · rw [hx, alookup_aremove_self]
            exact cur_none_after_leave st p hInv
          · rw [alookup_aremove_ne _ _ _ hx]
            rcases handleLeaveRoom_cases_inv st p hInv with ⟨-, heq2⟩ | ⟨r, -, -, -, heq2⟩
            · rw [heq2]
              exact hc x
            · rw [heq2]
              show alookup (aremove st.cur p) x = alookup c x
              rw [alookup_aremove_ne _ _ _ hx]
              exact hc x

theorem cur_equiv_runS (t : List Ev) (ht : allJoinsNonempty t = true) :
    ∀ x, alookup (runS t).cur x = alookup (specCur t) x :=
  cur_equiv_runFrom initS [] t sInv_init (fun _ => rfl) ht

theorem nodup_keys_specCurFrom (c : List (PeerId × RoomId))
    (hn : (c.map Prod.fst).Nodup) (t : List Ev) :
    ((specCurFrom c t).map Prod.fst).Nodup := by
  induction t generalizing c with
  | nil => exact hn
  | cons e rest ih =>
      apply ih
      cases e with
      | join p q0 => exact nodup_keys_aset p (sanitize q0) hn
      | leave p => exact nodup_keys_aremove p hn
      | disconnect p => exact nodup_keys_aremove p hn

theorem mem_specMembers_iff (t : List Ev) (r : RoomId) (p : PeerId) :
    p ∈ specMembers t r ↔ alookup (specCur t) p = some r := by
  unfold specMembers
  constructor
  · intro h
    obtain ⟨⟨a, b⟩, hpr, rfl⟩ := List.mem_map.mp h
    obtain ⟨hmem, hb⟩ := List.mem_filter.mp hpr
    have hb' : b = r := by simpa using hb
    subst hb'
    exact alookup_of_mem_of_nodup (nodup_keys_specCurFrom [] (by simp) t) hmem
  · intro h
    exact List.mem_map.mpr ⟨(p, r), List.mem_filter.mpr ⟨mem_of_alookup_eq_some h, by simp⟩, rfl⟩

/-! ## Message-trace helpers -/

theorem existingUsersSent_append (a b : List Msg) :
    existingUsersSent (a ++ b) = existingUsersSent a ++ existingUsersSent b :=
  List.filterMap_append a b _

theorem existingUsersSent_cons_existing (d : PeerId) (u : List PeerId) (rest : List Msg) :
    existingUsersSent (Msg.existingUsers d u :: rest) = (d, u) :: existingUsersSent rest := by
  simp [existingUsersSent, List.filterMap_cons]

theorem existingUsersSent_handleLeave (st : SState) (p : PeerId) :
    existingUsersSent (handleLeaveRoom st p).2 = [] := by
  rcases handleLeaveRoom_cases st p with heq | ⟨r, -, -, heq⟩
  · rw [heq]
    rfl
  · rw [heq]
    exact existingUsersSent_map_userDisconnected _ p

theorem mem_addUnique_filter_iff (l : List PeerId) (p x : PeerId) :
    x ∈ addUnique (l.filter (fun q => q ≠ p)) p ↔ (x ∈ l ∨ x = p) := by
  rw [mem_addUnique]
  constructor
  · rintro (hx | rfl)
    · exact Or.inl (List.mem_filter.mp hx).1
    · exact Or.inr rfl
  · rintro (hx | rfl)
    · by_cases hxp : x = p
      · exact Or.inr hxp
      · exact Or.inl (List.mem_filter.mpr ⟨hx, by simp [hxp]⟩)
    · exact Or.inr rfl

theorem count_map_userDisconnected (l : List PeerId) (p m : PeerId) :
    (l.map (fun q => Msg.userDisconnected q p)).count (Msg.userDisconnected m p) =
      l.count m := by
  induction l with
  | nil => rfl
  | cons a rest ih =>
      simp only [List.map_cons, List.count_cons, ih]
      congr 1
      by_cases h : a = m
      · simp [h]
      · simp [h]

theorem count_filter_ne (us : List PeerId) (p m : PeerId) (hn : us.Nodup) :
    (us.filter (fun q => q ≠ p)).count m = if m ∈ us ∧ m ≠ p then 1 else 0 := by
  by_cases hm : m ∈ us ∧ m ≠ p
  · rw [if_pos hm]
    exact List.count_eq_one_of_mem (hn.filter _)
      (List.mem_filter.mpr ⟨hm.1, by simp [hm.2]⟩)
  · rw [if_neg hm]
    apply List.count_eq_zero_of_not_mem
    intro hmem
    obtain ⟨h1, h2⟩ := List.mem_filter.mp hmem
    exact hm ⟨h1, by simpa using h2⟩

theorem count_userDisconnected_join_tail (pj : PeerId) (users : List PeerId)
    (l : List PeerId) (m p : PeerId) :
    (Msg.existingUsers pj users :: l.map (fun q => Msg.userConnected q pj)).count
      (Msg.userDisconnected m p) = 0 := by
  apply List.count_eq_zero_of_not_mem
  intro hmem
  rcases List.mem_cons.mp hmem with h | h
  · cases h
  · obtain ⟨x, -, hx⟩ := List.mem_map.mp h
    cases hx

/-! ## Claim theorems -/

/-- C1 counterexample: the very first peer to join a room receives
`existing-users = [A]` — a list containing the joining peer itself — whereas
the claim states that the list never contains the joining peer and that A
receives `[]`.  The `join-room` handler adds `socket.id` to the room's set
before building the list it emits. -/
theorem c1_counterexample :
    runMsgs [Ev.join "A" "r"] = [Msg.existingUsers "A" ["A"]] ∧
    Msg.existingUsers "A" [] ∉ runMsgs [Ev.join "A" "r"] := by
  constructor
  · decide
  · decide

/-- C1 (amended): for every `join(peerId, roomName)`, exactly one
`existing-users` message is emitted, it is addressed to the joining peer,
and its membership list consists of exactly the peers that were members of
the (sanitized) room before the join **together with the joining peer
itself** — the joiner always appears in the list; e.g. when A, B, C join
room "r" in that order, A receives `[A]`, B receives `[A, B]` and C
receives `[A, B, C]`. -/
theorem c1_existing_users_includes_joiner :
    (∀ (st : SState) (p : PeerId) (q0 : String), ∃ L,
      existingUsersSent (stepS st (Ev.join p q0)).2 = [(p, L)] ∧
      p ∈ L ∧
      (∀ x, x ∈ L ↔ (x ∈ memberList st (sanitize q0) ∨ x = p))) ∧
    existingUsersSent (runMsgs [Ev.join "A" "r", Ev.join "B" "r", Ev.join "C" "r"]) =
      [("A", ["A"]), ("B", ["A", "B"]), ("C", ["A", "B", "C"])] := by
  constructor
  · intro st p q0
    obtain ⟨st1, lm, heq, hcase⟩ := stepJoin_cases st p q0
    refine ⟨addUnique (memberListOf st1.rooms (sanitize q0)) p, ?_, ?_, ?_⟩
    · show existingUsersSent (stepJoin st p q0).2 = _
      rw [heq]
      show existingUsersSent (lm ++ (Msg.existingUsers p _ :: _)) = _
      rw [existingUsersSent_append, existingUsersSent_cons_existing,
        existingUsersSent_map_userConnected]
      have hlm : existingUsersSent lm = [] := by
        rcases hcase with ⟨-, rfl, -⟩ | ⟨-, rfl, -⟩
        · rfl
        · exact existingUsersSent_handleLeave st p
      rw [hlm]
      rfl
    · exact (mem_addUnique _ p p).mpr (Or.inr rfl)
    · intro x
      rcases hcase with ⟨rfl, -, -⟩ | ⟨rfl, -, -⟩
      · exact mem_addUnique _ p x
      · rcases handleLeaveRoom_cases st p with heq2 | ⟨r, -, -, heq2⟩
        · rw [heq2]
          exact mem_addUnique _ p x
        · rw [heq2]
          by_cases hr : sanitize q0 = r
          · subst hr
            show x ∈ addUnique (memberListOf (roomsRemoveMember st.rooms (sanitize q0) p)
              (sanitize q0)) p ↔ _
            rw [memberListOf_removeMember_self]
            exact mem_addUnique_filter_iff _ p x
          · show x ∈ addUnique (memberListOf (roomsRemoveMember st.rooms r p)
              (sanitize q0)) p ↔ _
            rw [memberListOf_removeMember_ne _ _ _ _ hr]
            exact mem_addUnique _ p x
  · decide

/-- C2 counterexample: peers A and B both request rooms whose names sanitize
to the empty string, so both are members of the registry room `""` and A's
`currentRoom` is `""`; yet an offer from A targeting its co-member B is
dropped, because `isValidTarget` tests `!currentRoom`, which is true for the
empty string.  The claim's "relayed if the sender currently has a room and
the target is a member of that same room" direction fails. -/
theorem c2_counterexample :
    relayOffer (runS [Ev.join "A" "!", Ev.join "B" "&"]) "A" "B" 0 = [] ∧
    alookup (runS [Ev.join "A" "!", Ev.join "B" "&"]).cur "A" = some "" ∧
    "B" ∈ memberList (runS [Ev.join "A" "!", Ev.join "B" "&"]) "" := by
  refine ⟨by decide, by decide, by decide⟩

/-- C2 (amended): an `offer`, `answer` or `ice-candidate` message from a
sender to a target is relayed if and only if the sender's current room has a
**nonempty** (sanitized) name and the target is a current member of that
room; when the check fails all three relays emit nothing at all — in
particular nothing to the sender. -/
theorem c2_relay_requires_same_nonempty_room (st : SState) (sender target : PeerId)
    (d c : Nat) :
    (isValidTarget st sender target = true ↔
      ∃ r, alookup st.cur sender = some r ∧ r ≠ "" ∧ target ∈ memberList st r) ∧
    (isValidTarget st sender target = true →
      relayOffer st sender target d = [Msg.offer target sender d] ∧
      relayAnswer st sender target d = [Msg.answer target sender d] ∧
      relayIceCandidate st sender target c = [Msg.iceCandidate target sender c]) ∧
    (isValidTarget st sender target = false →
      relayOffer st sender target d = [] ∧
      relayAnswer st sender target d = [] ∧
      relayIceCandidate st sender target c = []) := by
  refine ⟨?_, ?_, ?_⟩
  · unfold isValidTarget
    cases hc : alookup st.cur sender with
    | none =>
        simp only [Bool.false_eq_true, false_iff]
        rintro ⟨r, hr, -, -⟩
        cases hr
    | some r =>
        by_cases hr : r = ""
        · subst hr
          show false = true ↔ _
          simp only [Bool.false_eq_true, false_iff]
          rintro ⟨r', hr', hne, -⟩
          exact hne (Option.some.inj hr').symm
        · show (if r = "" then false else
              match alookup st.rooms r with
              | none => false
              | some roomUsers => roomUsers.contains target) = true ↔ _
          rw [if_neg hr]
          cases hrr : alookup st.rooms r with
          | none =>
              simp only [Bool.false_eq_true, false_iff]
              rintro ⟨r', hr', -, hmem⟩
              obtain rfl := (Option.some.inj hr').symm
              unfold memberList memberListOf at hmem
              rw [hrr] at hmem
              cases hmem
          | some us =>
              show us.contains target = true ↔ _
              constructor
              · intro h
                refine ⟨r, rfl, hr, ?_⟩
                unfold memberList memberListOf
                rw [hrr]
                simpa using h
              · rintro ⟨r', hr', -, hmem⟩
                obtain rfl := (Option.some.inj hr').symm
                unfold memberList memberListOf at hmem
                rw [hrr] at hmem
                simpa using hmem
  · intro h
    unfold relayOffer relayAnswer relayIceCandidate
    rw [h]
    exact ⟨rfl, rfl, rfl⟩
  · intro h
    unfold relayOffer relayAnswer relayIceCandidate
    rw [h]
    exact ⟨rfl, rfl, rfl⟩

/-- C2 witness: two peers in room "r"; the offer from A to B is relayed to B. -/
theorem c2_witness :
    relayOffer (runS [Ev.join "A" "r", Ev.join "B" "r"]) "A" "B" 7 =
      [Msg.offer "B" "A" 7] :=
  ((c2_relay_requires_same_nonempty_room (runS [Ev.join "A" "r", Ev.join "B" "r"])
    "A" "B" 7 0).2.1 (by decide)).1

/-- C3: for every join, the emitted message sequence places the
`existing-users` message to the joining peer strictly before every
`user-connected` notification: the output is `pre ++ existing-users :: post`
where `pre` (the implicit-leave notifications) contains no `user-connected`
message, so every `user-connected` for the new peer comes after the
snapshot. -/
theorem c3_existing_users_before_user_connected :
    ∀ (st : SState) (p : PeerId) (q0 : String),
      ∃ pre L post,
        (stepS st (Ev.join p q0)).2 = pre ++ Msg.existingUsers p L :: post ∧
        (∀ m ∈ pre, isUserConnectedMsg m = false) := by
  intro st p q0
  obtain ⟨st1, lm, heq, hcase⟩ := stepJoin_cases st p q0
  refine ⟨lm, addUnique (memberListOf st1.rooms (sanitize q0)) p,
    ((addUnique (memberListOf st1.socketRooms (sanitize q0)) p).filter
      (fun q => q ≠ p)).map (fun q => Msg.userConnected q p), ?_, ?_⟩
  · show (stepJoin st p q0).2 = _
    rw [heq]
  · intro m hm
    rcases hcase with ⟨-, rfl, -⟩ | ⟨-, hlm, -⟩
    · cases hm
    · rw [hlm] at hm
      rcases handleLeaveRoom_cases st p with heq2 | ⟨r, -, -, heq2⟩
      · rw [heq2] at hm
        cases hm
      · rw [heq2] at hm
        obtain ⟨x, -, rfl⟩ := List.mem_map.mp hm
        rfl

/-- C4 counterexample: A and B join rooms whose names sanitize to the empty
string, so both are members of room `""`; when A disconnects — a departure
with remaining member B — the server emits no message at all (zero
`user-disconnected` notifications), because `handleLeaveRoom`'s
`if (currentRoom && ...)` truthiness test fails for the empty string.  The
claim demands exactly one notification to B. -/
theorem c4_counterexample :
    alookup (runS [Ev.join "A" "?", Ev.join "B" "."]).cur "A" = some "" ∧
    "B" ∈ memberList (runS [Ev.join "A" "?", Ev.join "B" "."]) "" ∧
    (stepS (runS [Ev.join "A" "?", Ev.join "B" "."]) (Ev.disconnect "A")).2 = [] := by
  refine ⟨by decide, by decide, by decide⟩

/-- C4 (amended): for every departure of a peer from a room with a
**nonempty** sanitized name — explicit `leave-room`, a further `join`, or a
disconnect — each remaining member of that room receives exactly one
`user-disconnected` notification carrying the departing peer's identifier,
and nobody receives a second one in that step; departures from the
empty-named room (see the counterexample) emit no notification at all. -/
theorem c4_user_disconnected_exactly_once (t : List Ev)
    (ht : allJoinsNonempty t = true) (p : PeerId) (r : RoomId)
    (hcur : alookup (runS t).cur p = some r) (e : Ev)
    (he : e = Ev.leave p ∨ e = Ev.disconnect p ∨ ∃ q0, e = Ev.join p q0)
    (m : PeerId) :
    (stepS (runS t) e).2.count (Msg.userDisconnected m p) =
      if m ∈ memberList (runS t) r ∧ m ≠ p then 1 else 0 := by
  have hInv := sInv_runS t ht
  have hnodup := nodup_memberList (runS t) hInv r
  have hleave : (handleLeaveRoom (runS t) p).2 =
      ((memberList (runS t) r).filter (fun q => q ≠ p)).map
        (fun q => Msg.userDisconnected q p) := by
    rcases handleLeaveRoom_cases_inv (runS t) p hInv with ⟨hc, -⟩ | ⟨r', hc, -, -, heq⟩
    · rw [hcur] at hc
      cases hc
    · have : r' = r := Option.some.inj (hc.symm.trans hcur)
      subst this
      rw [heq]
  have hcount : (handleLeaveRoom (runS t) p).2.count (Msg.userDisconnected m p) =
      if m ∈ memberList (runS t) r ∧ m ≠ p then 1 else 0 := by
    rw [hleave, count_map_userDisconnected, count_filter_ne _ _ _ hnodup]
  rcases he with rfl | rfl | ⟨q0, rfl⟩
  · exact hcount
  · exact hcount
  · obtain ⟨st1, lm, heq, hcase⟩ := stepJoin_cases (runS t) p q0
    have hlm : lm = (handleLeaveRoom (runS t) p).2 := by
      rcases hcase with ⟨-, -, hc | hc⟩ | ⟨-, hlm, -⟩
      · rw [hcur] at hc
        cases hc
      · rw [hcur] at hc
        exact absurd (Option.some.inj hc) (hInv.curOk p r hcur).1
      · exact hlm
    show (stepJoin (runS t) p q0).2.count (Msg.userDisconnected m p) = _
    rw [heq]
    show (lm ++ (Msg.existingUsers p _ :: _)).count (Msg.userDisconnected m p) = _
    rw [List.count_append, count_userDisconnected_join_tail, Nat.add_zero, hlm, hcount]

/-- C4 witness: A and B share room "r"; when A disconnects, B receives the
`user-disconnected` notification exactly once. -/
theorem c4_witness :
    (stepS (runS [Ev.join "A" "r", Ev.join "B" "r"]) (Ev.disconnect "A")).2.count
      (Msg.userDisconnected "B" "A") = 1 := by
  have h := c4_user_disconnected_exactly_once [Ev.join "A" "r", Ev.join "B" "r"]
    (by decide) "A" "r" (by decide) (Ev.disconnect "A") (Or.inr (Or.inl rfl)) "B"
  rw [h]
  decide

/-- C5 counterexample: peer A joins a room whose requested name sanitizes to
the empty string and then disconnects; the registry still lists A as a
member of room `""` (the room record survives with a stale member), while
the spec-side member set — peers that joined and have not since left or
disconnected — is empty.  Both parts of the claim fail on this trace. -/
theorem c5_counterexample :
    memberList (runS [Ev.join "A" "?", Ev.disconnect "A"]) "" = ["A"] ∧
    specMembers [Ev.join "A" "?", Ev.disconnect "A"] "" = [] ∧
    alookup (runS [Ev.join "A" "?", Ev.disconnect "A"]).rooms "" = some ["A"] := by
  refine ⟨by decide, by decide, by decide⟩

/-- C5 (amended): for every sequence of join, leave and disconnect events in
which every join's requested room name sanitizes to a **nonempty** string,
each room's member set equals exactly the set of peers that joined it and
have not since left or disconnected, and the registry never holds an empty
room.  (Traces reaching the empty-named room violate both parts; see the
counterexample.) -/
theorem c5_room_membership_matches_spec (t : List Ev)
    (ht : allJoinsNonempty t = true) :
    (∀ r p, p ∈ memberList (runS t) r ↔ p ∈ specMembers t r) ∧
    (∀ r us, alookup (runS t).rooms r = some us → us ≠ []) := by
  have hInv := sInv_runS t ht
  constructor
  · intro r p
    have hcur := cur_equiv_runS t ht p
    rw [mem_specMembers_iff, ← hcur]
    constructor
    · exact hInv.memOk r p
    · intro h
      exact (hInv.curOk p r h).2
  · intro r us h
    exact (hInv.roomsOk r us h).2.1

/-- C5 witness: after A joins "r" and B joins and leaves, the registry room
"r" holds exactly the spec-side member A. -/
theorem c5_witness :
    ("A" ∈ memberList (runS [Ev.join "A" "r", Ev.join "B" "r", Ev.leave "B"]) "r" ↔
      "A" ∈ specMembers [Ev.join "A" "r", Ev.join "B" "r", Ev.leave "B"] "r") ∧
    ("B" ∈ memberList (runS [Ev.join "A" "r", Ev.join "B" "r", Ev.leave "B"]) "r" ↔
      "B" ∈ specMembers [Ev.join "A" "r", Ev.join "B" "r", Ev.leave "B"] "r") ∧
    memberList (runS [Ev.join "A" "r", Ev.join "B" "r", Ev.leave "B"]) "r" = ["A"] := by
  refine ⟨(c5_room_membership_matches_spec _ (by decide)).1 "r" "A",
    (c5_room_membership_matches_spec _ (by decide)).1 "r" "B", by decide⟩

/-- C10: room-name sanitization deletes every character outside
`[a-zA-Z0-9-]`: a name all of whose characters are disallowed sanitizes to
the empty string, and any two peers whose requested room names agree after
sanitization end up together in that one sanitized room — in particular all
peers with fully-disallowed names share the empty-string room. -/
theorem c10_sanitize_collapses_rooms :
    (∀ s : String, (∀ ch ∈ s.data, allowedChar ch = false) → sanitize s = "") ∧
    (∀ (st : SState) (p1 p2 : PeerId) (r1 r2 : String), sanitize r1 = sanitize r2 →
      p1 ∈ memberList (runSFrom st [Ev.join p1 r1, Ev.join p2 r2]) (sanitize r1) ∧
      p2 ∈ memberList (runSFrom st [Ev.join p1 r1, Ev.join p2 r2]) (sanitize r1)) := by
  constructor
  · intro s h
    unfold sanitize
    have : s.data.filter allowedChar = [] := by
      apply List.filter_eq_nil_iff.mpr
      intro a ha
      rw [h a ha]
      exact Bool.false_ne_true
    rw [this]
  · intro st p1 p2 r1 r2 hsan
    obtain ⟨st1, lm1, heq1, -⟩ := stepJoin_cases st p1 r1
    have hp1A : p1 ∈ memberList (stepJoin st p1 r1).1 (sanitize r1) := by
      rw [heq1]
      show p1 ∈ memberListOf (roomsAddMember st1.rooms (sanitize r1) p1) (sanitize r1)
      rw [memberListOf_addMember_self]
      exact (mem_addUnique _ p1 p1).mpr (Or.inr rfl)
    obtain ⟨st2, lm2, heq2, hcase2⟩ := stepJoin_cases (stepJoin st p1 r1).1 p2 r2
    have hview2 : memberList (stepJoin (stepJoin st p1 r1).1 p2 r2).1 (sanitize r2) =
        addUnique (memberListOf st2.rooms (sanitize r2)) p2 := by
      rw [heq2]
      show memberListOf (roomsAddMember st2.rooms (sanitize r2) p2) (sanitize r2) = _
      rw [memberListOf_addMember_self]
    have hrun : runSFrom st [Ev.join p1 r1, Ev.join p2 r2] =
        (stepJoin (stepJoin st p1 r1).1 p2 r2).1 := rfl
    rw [hrun, hsan, hview2]
    constructor
    · -- p1 is still a member after p2's join
      by_cases hp12 : p1 = p2
      · exact (mem_addUnique _ p2 p1).mpr (Or.inr hp12)
      · apply (mem_addUnique _ p2 p1).mpr
        left
        rcases hcase2 with ⟨rfl, -, -⟩ | ⟨rfl, -, -⟩
        · rw [← hsan]
          exact hp1A
        · rcases handleLeaveRoom_cases (stepJoin st p1 r1).1 p2 with heq3 | ⟨r', -, -, heq3⟩
          · rw [heq3, ← hsan]
            exact hp1A
          · rw [heq3]
            by_cases hr' : sanitize r2 = r'
            · subst hr'
              show p1 ∈ memberListOf
                (roomsRemoveMember (stepJoin st p1 r1).1.rooms (sanitize r2) p2)
                (sanitize r2)
              rw [memberListOf_removeMember_self]
              apply List.mem_filter.mpr
              refine ⟨?_, by simp [hp12]⟩
              rw [← hsan]
              exact hp1A
            · show p1 ∈ memberListOf
                (roomsRemoveMember (stepJoin st p1 r1).1.rooms r' p2) (sanitize r2)
              rw [memberListOf_removeMember_ne _ _ _ _ hr']
              rw [← hsan]
              exact hp1A
    · exact (mem_addUnique _ p2 p2).mpr (Or.inr rfl)

/-- C10 witness: the fully-disallowed names "!!!" and "@@@" both sanitize to
the empty string and the two peers requesting them land together in the
empty-string room. -/
theorem c10_witness :
    sanitize "!!!" = "" ∧
    "A" ∈ memberList (runS [Ev.join "A" "!!!", Ev.join "B" "@@@"]) "" ∧
    "B" ∈ memberList (runS [Ev.join "A" "!!!", Ev.join "B" "@@@"]) "" := by
  have hs : sanitize "!!!" = "" := c10_sanitize_collapses_rooms.1 "!!!" (by decide)
  have h := c10_sanitize_collapses_rooms.2 initS "A" "B" "!!!" "@@@" (by decide)
  rw [hs] at h
  exact ⟨hs, h.1, h.2⟩

/-- C6: once a peer connection has reached the `stable` signaling state, a
further `answer` message for it leaves the entire client state unchanged —
the handler returns before `setRemoteDescription`, so the stale description
is never applied. -/
theorem c6_stale_answer_ignored (st : CState) (answerer : PeerId) (d : Nat)
    (i : Nat) (pc : PCState) (hlook : alookup st.peers answerer = some i)
    (hpc : st.conns[i]? = some pc)
    (hstable : pc.signalingState = SigState.stable) :
    handleAnswer st answerer d = st := by
  simp [handleAnswer, hlook, hpc, hstable]

/-- C6 witness: a connection that completed offer/answer negotiation is
`stable`; a duplicate answer for it changes nothing. -/
theorem c6_witness :
    handleAnswer (runC [CEv.connectToNewUser "B" 5, CEv.answerMsg "B" 7]) "B" 9 =
      runC [CEv.connectToNewUser "B" 5, CEv.answerMsg "B" 7] :=
  c6_stale_answer_ignored (runC [CEv.connectToNewUser "B" 5, CEv.answerMsg "B" 7])
    "B" 9 0
    { userId := "B", localDescription := some 5, remoteDescription := some 7,
      signalingState := SigState.stable, queuedCandidates := [],
      appliedCandidates := [], closed := false }
    (by decide) (by decide) rfl

/-- C7 (code bug): an ICE candidate that arrives before the remote
description is queued in `queuedCandidates`, but no line of
`src/public/main.js` ever reads that queue again: after the answer applies
the remote description, the queued candidate is still sitting in the queue
and `addIceCandidate` has never been called for it — the flush the spec
requires does not exist.  Concretely: connect to B (local offer 5), receive
candidate 42 from B (queued), receive B's answer 7 (remote description set,
state `stable`); the connection record shows `queuedCandidates = [42]` and
`appliedCandidates = []`. -/
theorem c7_queued_candidates_never_flushed :
    (runC [CEv.connectToNewUser "B" 5, CEv.iceCandidateMsg "B" 42,
      CEv.answerMsg "B" 7]).conns =
      [{ userId := "B", localDescription := some 5, remoteDescription := some 7,
         signalingState := SigState.stable, queuedCandidates := [42],
         appliedCandidates := [], closed := false }] := by
  decide

/-- C8: for every client-initiated RPC request the (spec-modelled) server
delivers exactly one acknowledgment, the client's promise is settled (no
longer pending) exactly once by that acknowledgment, it is rejected with the
error message when the acknowledgment carries an error payload (a nonempty
message — JS truthiness of `response.error`), and it is resolved with the
response otherwise. -/
theorem c8_rpc_single_acknowledgment (handler : RpcKind → Nat → RpcResponse)
    (kind : RpcKind) (data : Nat) :
    (serverAcks handler kind data).length = 1 ∧
    runRequest handler kind data ≠ PromiseState.pending ∧
    (∀ msg, (handler kind data).error = some msg → msg ≠ "" →
      runRequest handler kind data = PromiseState.rejectedWith msg) ∧
    ((handler kind data).error = none →
      runRequest handler kind data = PromiseState.resolvedWith (handler kind data)) := by
  refine ⟨rfl, ?_, ?_, ?_⟩
  · show requestCallback PromiseState.pending (handler kind data) ≠ PromiseState.pending
    unfold requestCallback
    cases h : jsTruthy (handler kind data).error
    · simp
    · simp
  · intro msg hmsg hne
    show requestCallback PromiseState.pending (handler kind data) = _
    unfold requestCallback
    rw [hmsg]
    simp [jsTruthy, hne]
  · intro hnone
    show requestCallback PromiseState.pending (handler kind data) = _
    unfold requestCallback
    rw [hnone]
    simp [jsTruthy]

/-- C8 witness: an acknowledgment with error payload "boom" rejects the
promise with that message; a success acknowledgment resolves it. -/
theorem c8_witness :
    runRequest (fun _ _ => { error := some "boom", payload := 0 }) RpcKind.joinRoom 3 =
      PromiseState.rejectedWith "boom" :=
  (c8_rpc_single_acknowledgment (fun _ _ => { error := some "boom", payload := 0 })
    RpcKind.joinRoom 3).2.2.1 "boom" rfl (by decide)

/-! ## Client-invariant machinery (for C9) -/

theorem lt_of_getElem?_eq_some {α : Type} {l : List α} {i : Nat} {a : α}
    (h : l[i]? = some a) : i < l.length := by
  by_contra hlt
  rw [List.getElem?_eq_none (Nat.le_of_not_lt hlt)] at h
  cases h

theorem updConn_get (st : CState) (i : Nat) (f : PCState → PCState) (j : Nat) :
    (updConn st i f).conns[j]? =
      if i = j then (st.conns[j]?).map f else st.conns[j]? := by
  unfold updConn
  cases hi : st.conns[i]? with
  | none =>
      by_cases hij : i = j
      · subst hij
        rw [if_pos rfl, hi]
        rfl
      · rw [if_neg hij]
  | some pc =>
      show (st.conns.set i (f pc))[j]? = _
      by_cases hij : i = j
      · subst hij
        rw [if_pos rfl, hi, List.getElem?_set_self (lt_of_getElem?_eq_some hi)]
        rfl
      · rw [if_neg hij, List.getElem?_set_ne hij]

theorem updConn_peers (st : CState) (i : Nat) (f : PCState → PCState) :
    (updConn st i f).peers = st.peers := by
  unfold updConn
  cases st.conns[i]? <;> rfl

theorem cInv_updConn (st : CState) (i : Nat) (f : PCState → PCState)
    (hf : ∀ pc, (f pc).userId = pc.userId ∧ (f pc).closed = pc.closed)
    (h : CInv st) : CInv (updConn st i f) := by
  intro j pc' hj hopen
  rw [updConn_peers]
  rw [updConn_get] at hj
  by_cases hij : i = j
  · rw [if_pos hij] at hj
    cases hpc : st.conns[j]? with
    | none =>
        rw [hpc] at hj
        cases hj
    | some pc =>
        rw [hpc] at hj
        simp only [Option.map_some'] at hj
        obtain rfl := Option.some.inj hj
        rw [(hf pc).1]
        apply h j pc hpc
        rw [← (hf pc).2]
        exact hopen
  · rw [if_neg hij] at hj
    exact h j pc' hj hopen

theorem cInv_closeAndDelete (st : CState) (u : PeerId) (h : CInv st) :
    CInv (closeAndDelete st u) ∧
    (∀ (j : Nat) (pc : PCState), (closeAndDelete st u).conns[j]? = some pc →
      pc.closed = false → pc.userId ≠ u) := by
  unfold closeAndDelete
  cases hu : alookup st.peers u with
  | none =>
      refine ⟨h, ?_⟩
      intro j pc hj hopen hequ
      have hm := h j pc hj hopen
      rw [hequ, hu] at hm
      cases hm
  | some i =>
      constructor
      · intro j pc' hj hopen
        replace hj : (updConn st i (fun pc => { pc with closed := true })).conns[j]? =
          some pc' := hj
        rw [updConn_get] at hj
        by_cases hij : i = j
        · rw [if_pos hij] at hj
          cases hpc : st.conns[j]? with
          | none =>
              rw [hpc] at hj
              cases hj
          | some pc =>
              rw [hpc] at hj
              simp only [Option.map_some'] at hj
              obtain rfl := Option.some.inj hj
              exact Bool.noConfusion hopen
        · rw [if_neg hij] at hj
          have hm := h j pc' hj hopen
          have hne : pc'.userId ≠ u := by
            intro hequ
            rw [hequ, hu] at hm
            exact hij (Option.some.inj hm)
          show alookup (aremove (updConn st i
            (fun pc => { pc with closed := true })).peers u) pc'.userId = some j
          rw [updConn_peers, alookup_aremove_ne _ _ _ hne]
          exact hm
      · intro j pc' hj hopen hequ
        replace hj : (updConn st i (fun pc => { pc with closed := true })).conns[j]? =
          some pc' := hj
        rw [updConn_get] at hj
        by_cases hij : i = j
        · rw [if_pos hij] at hj
          cases hpc : st.conns[j]? with
          | none =>
              rw [hpc] at hj
              cases hj
          | some pc =>
              rw [hpc] at hj
              simp only [Option.map_some'] at hj
              obtain rfl := Option.some.inj hj
              exact Bool.noConfusion hopen
        · rw [if_neg hij] at hj
          have hm := h j pc' hj hopen
          rw [hequ, hu] at hm
          exact hij (Option.some.inj hm)

theorem createPeerConnection_conns (st : CState) (u : PeerId) :
    (createPeerConnection st u).1.conns = st.conns ++
      [{ userId := u, localDescription := none, remoteDescription := none,
         signalingState := SigState.stable, queuedCandidates := [],
         appliedCandidates := [], closed := false }] := rfl

theorem createPeerConnection_peers (st : CState) (u : PeerId) :
    (createPeerConnection st u).1.peers = aset st.peers u st.conns.length := rfl

theorem cInv_createPeerConnection (st : CState) (u : PeerId) (h : CInv st)
    (hno : ∀ (j : Nat) (pc : PCState), st.conns[j]? = some pc → pc.closed = false →
      pc.userId ≠ u) :
    CInv (createPeerConnection st u).1 := by
  intro j pc' hj hopen
  rw [createPeerConnection_conns] at hj
  rw [createPeerConnection_peers]
  by_cases hlt : j < st.conns.length
  · rw [List.getElem?_append_left hlt] at hj
    have hm := h j pc' hj hopen
    rw [alookup_aset_ne _ _ _ _ (hno j pc' hj hopen)]
    exact hm
  · rw [List.getElem?_append_right (Nat.le_of_not_lt hlt)] at hj
    cases hd : j - st.conns.length with
    | zero =>
        rw [hd] at hj
        obtain rfl := (Option.some.inj hj).symm
        have hjeq : j = st.conns.length :=
          Nat.le_antisymm (Nat.le_of_sub_eq_zero hd) (Nat.le_of_not_lt hlt)
        show alookup (aset st.peers u st.conns.length) u = some j
        rw [alookup_aset_self, hjeq]
    | succ k =>
        rw [hd] at hj
        cases hj

theorem cInv_connectToNewUser (st : CState) (u : PeerId) (o : Nat) (h : CInv st) :
    CInv (connectToNewUser st u o) := by
  obtain ⟨h1, h2⟩ := cInv_closeAndDelete st u h
  have h3 := cInv_createPeerConnection (closeAndDelete st u) u h1 h2
  exact cInv_updConn (createPeerConnection (closeAndDelete st u) u).1
    (createPeerConnection (closeAndDelete st u) u).2
    (fun pc =>
      { pc with localDescription := some o,
                signalingState := SigState.haveLocalOffer })
    (fun pc => ⟨rfl, rfl⟩) h3

theorem cInv_handleAnswer (st : CState) (u : PeerId) (d : Nat) (h : CInv st) :
    CInv (handleAnswer st u d) := by
  unfold handleAnswer
  split
  · exact h
  · split
    · exact h
    · split
      · exact h
      · split
        · exact cInv_updConn st _ _ (fun q => ⟨rfl, rfl⟩) h
        · exact h

theorem cInv_handleIceCandidate (st : CState) (u : PeerId) (c : Nat) (h : CInv st) :
    CInv (handleIceCandidate st u c) := by
  unfold handleIceCandidate
  split
  · exact h
  · split
    · exact h
    · split
      · exact cInv_updConn st _ _ (fun q => ⟨rfl, rfl⟩) h
      · exact cInv_updConn st _ _ (fun q => ⟨rfl, rfl⟩) h

theorem cInv_handleOffer_core (s : CState) (i : Nat) (d a0 : Nat) (hs : CInv s) :
    CInv (match s.conns[i]? with
      | none => s
      | some pc =>
          if pc.remoteDescription = none then
            if pc.signalingState = SigState.stable then
              updConn (updConn s i (fun q =>
                { q with remoteDescription := some d,
                         signalingState := SigState.haveRemoteOffer })) i (fun q =>
                { q with localDescription := some a0,
                         signalingState := SigState.stable })
            else s
          else
            if pc.signalingState = SigState.haveRemoteOffer then
              updConn s i (fun q =>
                { q with localDescription := some a0,
                         signalingState := SigState.stable })
            else s) := by
  split
  · exact hs
  · split
    · split
      · exact cInv_updConn _ i _ (fun q => ⟨rfl, rfl⟩)
          (cInv_updConn s i _ (fun q => ⟨rfl, rfl⟩) hs)
      · exact hs
    · split
      · exact cInv_updConn s i _ (fun q => ⟨rfl, rfl⟩) hs
      · exact hs

theorem cInv_handleOffer (st : CState) (u : PeerId) (d a0 : Nat) (h : CInv st) :
    CInv (handleOffer st u d a0) := by
  unfold handleOffer
  cases hu : alookup st.peers u with
  | some i => exact cInv_handleOffer_core st i d a0 h
  | none =>
      have hno : ∀ (j : Nat) (pc : PCState), st.conns[j]? = some pc →
          pc.closed = false → pc.userId ≠ u := by
        intro j pc hj hopen hequ
        have hm := h j pc hj hopen
        rw [hequ, hu] at hm
        cases hm
      exact cInv_handleOffer_core (createPeerConnection st u).1
        (createPeerConnection st u).2 d a0 (cInv_createPeerConnection st u h hno)

theorem map_close_idem (o : Option PCState) :
    (o.map (fun pc => { pc with closed := true })).map
        (fun pc => { pc with closed := true }) =
      o.map (fun pc => { pc with closed := true }) := by
  cases o <;> rfl

theorem cleanup_fold_get_shape (entries : List (PeerId × Nat)) (cs : List PCState)
    (j : Nat) :
    (entries.foldl (fun cs entry =>
        match cs[entry.2]? with
        | none => cs
        | some pc => cs.set entry.2 { pc with closed := true }) cs)[j]? = cs[j]? ∨
    (entries.foldl (fun cs entry =>
        match cs[entry.2]? with
        | none => cs
        | some pc => cs.set entry.2 { pc with closed := true }) cs)[j]? =
      (cs[j]?).map (fun pc => { pc with closed := true }) := by
  induction entries generalizing cs with
  | nil => exact Or.inl rfl
  | cons e rest ih =>
      rw [List.foldl_cons]
      have hstep : (match cs[e.2]? with
          | none => cs
          | some pc => cs.set e.2 { pc with closed := true })[j]? = cs[j]? ∨
          (match cs[e.2]? with
          | none => cs
          | some pc => cs.set e.2 { pc with closed := true })[j]? =
            (cs[j]?).map (fun pc => { pc with closed := true }) := by
        cases hpc : cs[e.2]? with
        | none => exact Or.inl rfl
        | some pc =>
            by_cases hej : e.2 = j
            · subst hej
              right
              show (cs.set e.2 { pc with closed := true })[e.2]? = _
              rw [List.getElem?_set_self (lt_of_getElem?_eq_some hpc), hpc]
              rfl
            · left
              show (cs.set e.2 { pc with closed := true })[j]? = _
              exact List.getElem?_set_ne hej
      rcases ih (match cs[e.2]? with
        | none => cs
        | some pc => cs.set e.2 { pc with closed := true }) with h1 | h1 <;>
        rcases hstep with h2 | h2
      · exact Or.inl (h1.trans h2)
      · exact Or.inr (h1.trans h2)
      · exact Or.inr (by rw [h1, h2])
      · refine Or.inr ?_
        rw [h1, h2, map_close_idem]

theorem cleanup_fold_preserves_closed (entries : List (PeerId × Nat)) :
    ∀ (cs : List PCState) (j : Nat),
      (∀ pc, cs[j]? = some pc → pc.closed = true) →
      ∀ pc, (entries.foldl (fun cs entry =>
        match cs[entry.2]? with
        | none => cs
        | some pc => cs.set entry.2 { pc with closed := true }) cs)[j]? = some pc →
        pc.closed = true := by
  induction entries with
  | nil => exact fun cs j hc => hc
  | cons e rest ih =>
      intro cs j hc pc hpc
      rw [List.foldl_cons] at hpc
      refine ih _ j ?_ pc hpc
      intro pc' hpc'
      cases hpe : cs[e.2]? with
      | none =>
          rw [hpe] at hpc'
          exact hc pc' hpc'
      | some pc0 =>
          rw [hpe] at hpc'
          by_cases hej : e.2 = j
          · subst hej
            rw [List.getElem?_set_self (lt_of_getElem?_eq_some hpe)] at hpc'
            obtain rfl := (Option.some.inj hpc').symm
            rfl
          · rw [List.getElem?_set_ne hej] at hpc'
            exact hc pc' hpc'

theorem cleanup_fold_closes (entries : List (PeerId × Nat)) :
    ∀ (cs : List PCState) (j : Nat), (∃ e ∈ entries, e.2 = j) →
      ∀ pc, (entries.foldl (fun cs entry =>
        match cs[entry.2]? with
        | none => cs
        | some pc => cs.set entry.2 { pc with closed := true }) cs)[j]? = some pc →
        pc.closed = true := by
  induction entries with
  | nil =>
      intro cs j hj
      obtain ⟨e, he, -⟩ := hj
      cases he
  | cons e rest ih =>
      intro cs j hj pc hpc
      rw [List.foldl_cons] at hpc
      obtain ⟨e', he', hej⟩ := hj
      rcases List.mem_cons.mp he' with rfl | hmem
      · refine cleanup_fold_preserves_closed rest _ j ?_ pc hpc
        intro pc' hpc'
        cases hpe : cs[e'.2]? with
        | none =>
            rw [hpe] at hpc'
            rw [← hej, hpe] at hpc'
            cases hpc'
        | some pc0 =>
            rw [hpe] at hpc'
            subst hej
            rw [List.getElem?_set_self (lt_of_getElem?_eq_some hpe)] at hpc'
            obtain rfl := (Option.some.inj hpc').symm
            rfl
      · exact ih _ j ⟨e', hmem, hej⟩ pc hpc

theorem cInv_cleanupPeers (st : CState) (h : CInv st) : CInv (cleanupPeers st) := by
  intro j pc hj hopen
  exfalso
  replace hj : (st.peers.foldl (fun cs entry =>
      match cs[entry.2]? with
      | none => cs
      | some pc => cs.set entry.2 { pc with closed := true }) st.conns)[j]? =
    some pc := hj
  have hj0 := hj
  rcases cleanup_fold_get_shape st.peers st.conns j with hs | hs
  · rw [hs] at hj
    have hm := h j pc hj hopen
    have hmem : (pc.userId, j) ∈ st.peers := mem_of_alookup_eq_some hm
    have hclosed := cleanup_fold_closes st.peers st.conns j
      ⟨(pc.userId, j), hmem, rfl⟩ pc hj0
    rw [hopen] at hclosed
    cases hclosed
  · rw [hs] at hj
    cases hpc : st.conns[j]? with
    | none =>
        rw [hpc] at hj
        cases hj
    | some pc0 =>
        rw [hpc] at hj
        simp only [Option.map_some'] at hj
        obtain rfl := (Option.some.inj hj).symm
        exact Bool.noConfusion hopen

theorem cInv_stepC (st : CState) (e : CEv) (h : CInv st) : CInv (stepC st e) := by
  cases e with
  | connectToNewUser u o => exact cInv_connectToNewUser st u o h
  | offerMsg u d a0 => exact cInv_handleOffer st u d a0 h
  | answerMsg u d => exact cInv_handleAnswer st u d h
  | iceCandidateMsg u c => exact cInv_handleIceCandidate st u c h
  | connectionFailed u => exact (cInv_closeAndDelete st u h).1
  | reconnectFired u o => exact cInv_connectToNewUser st u o h
  | userDisconnected u => exact (cInv_closeAndDelete st u h).1
  | cleanup => exact cInv_cleanupPeers st h

theorem cInv_runC (evs : List CEv) : CInv (runC evs) := by
  have hstep : ∀ (st : CState) (t : List CEv), CInv st → CInv (runCFrom st t) := by
    intro st t
    induction t generalizing st with
    | nil => exact fun h => h
    | cons e rest ih => exact fun h => ih (stepC st e) (cInv_stepC st e h)
  refine hstep initC evs ?_
  intro j pc hj hopen
  cases hj

/-- C9: the client's `peers` map holds at most one live connection per
remote peer identifier: after any sequence of `connectToNewUser`, offer /
answer / ice-candidate handling, connection failures with reconnection,
user disconnections and cleanup, two open (never-closed) connections with
the same `userId` are the same connection — every operation that replaces a
connection closes and removes the previous one first. -/
theorem c9_at_most_one_live_connection (evs : List CEv) (i j : Nat)
    (pci pcj : PCState) (hi : (runC evs).conns[i]? = some pci)
    (hj : (runC evs).conns[j]? = some pcj) (hoi : pci.closed = false)
    (hoj : pcj.closed = false) (hu : pci.userId = pcj.userId) : i = j := by
  have h := cInv_runC evs
  have h1 := h i pci hi hoi
  have h2 := h j pcj hj hoj
  rw [hu] at h1
  exact Option.some.inj (h1.symm.trans h2)

/-- C9 witness: connecting twice to the same peer leaves the first
connection closed and exactly one live connection; the theorem applied at
the live connection's index. -/
theorem c9_witness :
    (runC [CEv.connectToNewUser "B" 5, CEv.connectToNewUser "B" 6]).conns =
      [{ userId := "B", localDescription := some 5, remoteDescription := none,
         signalingState := SigState.haveLocalOffer, queuedCandidates := [],
         appliedCandidates := [], closed := true },
       { userId := "B", localDescription := some 6, remoteDescription := none,
         signalingState := SigState.haveLocalOffer, queuedCandidates := [],
         appliedCandidates := [], closed := false }] ∧
    (1 : Nat) = 1 := by
  refine ⟨by decide, ?_⟩
  exact c9_at_most_one_live_connection
    [CEv.connectToNewUser "B" 5, CEv.connectToNewUser "B" 6] 1 1
    { userId := "B", localDescription := some 6, remoteDescription := none,
      signalingState := SigState.haveLocalOffer, queuedCandidates := [],
      appliedCandidates := [], closed := false }
    { userId := "B", localDescription := some 6, remoteDescription := none,
      signalingState := SigState.haveLocalOffer, queuedCandidates := [],
      appliedCandidates := [], closed := false }
    (by decide) (by decide) rfl rfl rfl

end ConfApp
